import Mathlib

/-!
Shallow embedding of the skew-heap priority queue from
src/src/priority_queue.hpp (class sjtu::priority_queue).

Modelling conventions:
* A LeftistNode pointer is modelled as `Tree α`: a null pointer is `Tree.leaf`,
  a node holds its value and the two child pointers ls, rs.
* The comparator Compare (default std::less) is a Bool-valued function
  lt : α → α → Bool; the C++ expression (*a < *b) is lt a.value b.value.
* A throwing comparator is modelled separately by lt : α → α → Except Unit Bool
  (see mergeNodeE / popE): in the C++ code every comparator call inside
  MergeNode happens before the recursive call, and every pointer-field write
  (a->rs = ..., std::swap(a->ls, a->rs)) happens only after the recursive call
  returned, so a throw escapes MergeNode before any node was mutated.
* capacity has C++ type size_t. All operations change it by +1, -1 (guarded by
  a non-zero check) or by adding the node count of live allocations, so the
  2^64 wraparound is unreachable in any executable run; it is modelled as Nat.
  The statement int siz = capacity - 1 in pop is executed only when
  capacity >= 1, where it agrees with Nat subtraction.
-/

namespace SkewHeapPQ

/-- Embedding of LeftistNode: value plus the ls / rs child pointers,
with the null pointer represented by leaf. -/
inductive Tree (α : Type) where
  | leaf : Tree α
  | node (value : α) (ls rs : Tree α) : Tree α
deriving DecidableEq

/-- Number of live nodes reachable from a pointer (not a function of the C++
source, used to state size consistency and termination measures). -/
def Tree.count {α : Type} : Tree α → Nat
  | .leaf => 0
  | .node _ l r => 1 + l.count + r.count

/-- Multiset of values stored in a tree (specification-side observer). -/
def Tree.elems {α : Type} : Tree α → Multiset α
  | .leaf => 0
  | .node v l r => v ::ₘ (l.elems + r.elems)

/-- Embedding of MergeNode (priority_queue.hpp lines 75-84).
The C++ code, after the two null checks, swaps the local pointers a, b when
(*a < *b) so that a names the comparison winner w; it then executes
w->rs = MergeNode(w->rs, loser) followed by std::swap(w->ls, w->rs), so the
returned node is: value w.value, ls = MergeNode(w.rs, loser), rs = w.ls. -/
def mergeNode {α : Type} (lt : α → α → Bool) : Tree α → Tree α → Tree α
  | .leaf, b => b
  | a, .leaf => a
  | .node av al ar, .node bv bl br =>
    if lt av bv then
      Tree.node bv (mergeNode lt br (Tree.node av al ar)) bl
    else
      Tree.node av (mergeNode lt ar (Tree.node bv bl br)) al
termination_by a b => a.count + b.count
decreasing_by
  all_goals simp [Tree.count]
  all_goals omega

/-- Child swap helper used by the spec-side description of the algorithm. -/
def swapLR {α : Type} : Tree α → Tree α
  | .leaf => .leaf
  | .node v l r => .node v r l

/-- Spec-side formulation of the skew-heap merge, written step by step after
the algorithm of spec section 4.1 / claim C1: absent operand returned
unchanged; the operand not preferred by the comparator (ties keeping the first
operand a) becomes the new root; the new root's previous right subtree is
recursively merged with the demoted operand and attached as the new right
subtree; finally the new root's children are unconditionally swapped.
Compared against mergeNode in the C1 refinement theorem. -/
def skewMergeSpec {α : Type} (lt : α → α → Bool) : Tree α → Tree α → Tree α
  | .leaf, b => b
  | a, .leaf => a
  | .node av al ar, .node bv bl br =>
    if lt av bv then
      swapLR (Tree.node bv bl (skewMergeSpec lt br (Tree.node av al ar)))
    else
      swapLR (Tree.node av al (skewMergeSpec lt ar (Tree.node bv bl br)))
termination_by a b => a.count + b.count
decreasing_by
  all_goals simp [Tree.count]
  all_goals omega

/-- Embedding of MergeNode under a comparator that may throw
(lt returns Except Unit Bool; Except.error models a thrown exception).
Faithful to the C++ control flow: the comparator is consulted first, and the
node is (re)built only after the recursive merge returned normally, so an
error yields no partially-merged tree. -/
def mergeNodeE {α : Type} (lt : α → α → Except Unit Bool) :
    Tree α → Tree α → Except Unit (Tree α)
  | .leaf, b => .ok b
  | a, .leaf => .ok a
  | .node av al ar, .node bv bl br =>
    match lt av bv with
    | .error e => .error e
    | .ok true =>
      match mergeNodeE lt br (Tree.node av al ar) with
      | .error e => .error e
      | .ok m => .ok (Tree.node bv m bl)
    | .ok false =>
      match mergeNodeE lt ar (Tree.node bv bl br) with
      | .error e => .error e
      | .ok m => .ok (Tree.node av m al)
termination_by a b => a.count + b.count
decreasing_by
  all_goals simp [Tree.count]
  all_goals omega

/-- Embedding of the friend function copy (lines 90-94): a deep copy,
allocating a fresh node per source node with the same value and shape. -/
def Tree.copy {α : Type} : Tree α → Tree α
  | .leaf => .leaf
  | .node v l r => .node v (l.copy) (r.copy)

/-- The container state: cached element count capacity and the owned root. -/
structure PQ (α : Type) where
  capacity : Nat
  root : Tree α
deriving DecidableEq

/-- Error signals: container_is_empty is thrown by top / pop on an empty
queue; nullDeref marks the undefined behaviour of dereferencing a null root
when capacity is nonzero (reachable only through an inconsistent state). -/
inductive HeapError where
  | containerIsEmpty
  | nullDeref
deriving DecidableEq

/-- Default constructor: capacity 0, root nullptr. -/
def emptyPQ {α : Type} : PQ α := ⟨0, Tree.leaf⟩

/-- size(): returns the cached capacity. -/
def PQ.size {α : Type} (q : PQ α) : Nat := q.capacity

/-- empty(): returns !capacity. -/
def PQ.isEmptyQ {α : Type} (q : PQ α) : Bool := q.capacity == 0

/-- The constructor priority_queue(LeftistNode *_root, size_t _capacity)
(lines 108-110): capacity is set to the argument (default 0 in the C++
declaration) while the tree is deep-copied from _root; the two are not
reconciled. -/
def ofNode {α : Type} (r : Tree α) (cap : Nat) : PQ α := ⟨cap, r.copy⟩

/-- Copy constructor (lines 112-115): copies the cached capacity and
deep-copies the tree. -/
def copyCtor {α : Type} (other : PQ α) : PQ α := ⟨other.capacity, other.root.copy⟩

/-- operator= (lines 125-131). sameObject models the pointer comparison
&other == this: when it holds the function returns *this unchanged, before
the old tree is released; otherwise the old tree is released (a value-level
no-op here) and the state is deep-copied from the source. -/
def assign {α : Type} (self other : PQ α) (sameObject : Bool) : PQ α :=
  if sameObject then self else ⟨other.capacity, other.root.copy⟩

/-- top() (lines 137-140): throws container_is_empty when empty(), otherwise
returns root->value (dereferencing a null root is undefined behaviour,
modelled as the distinct nullDeref outcome). -/
def top {α : Type} (q : PQ α) : Except HeapError α :=
  if q.isEmptyQ then .error .containerIsEmpty
  else
    match q.root with
    | .leaf => .error .nullDeref
    | .node v _ _ => .ok v

/-- push(e) (lines 144-153) under a non-throwing comparator: a fresh node is
allocated and merged as MergeNode(root, node_pointer); the catch branch is
unreachable, so capacity is incremented. -/
def push {α : Type} (lt : α → α → Bool) (q : PQ α) (e : α) : PQ α :=
  ⟨q.capacity + 1, mergeNode lt q.root (Tree.node e Tree.leaf Tree.leaf)⟩

/-- pop() (lines 158-169) under a non-throwing comparator: throws
container_is_empty when empty(); otherwise the children of the old root are
merged into the new root, capacity becomes capacity - 1 (computed through the
local int siz, exact since capacity >= 1 here), and the old root node alone
is deleted. -/
def pop {α : Type} (lt : α → α → Bool) (q : PQ α) : Except HeapError (PQ α) :=
  if q.isEmptyQ then .error .containerIsEmpty
  else
    match q.root with
    | .leaf => .error .nullDeref
    | .node _ l r => .ok ⟨q.capacity - 1, mergeNode lt l r⟩

/-- pop() under a comparator that may throw: the try block around
root = MergeNode(before->ls, before->rs) catches every exception and returns;
in that case neither root nor capacity was assigned and before was not
deleted, and (see mergeNodeE) the merge mutated nothing, so the state is
returned unchanged. -/
def popE {α : Type} (lt : α → α → Except Unit Bool) (q : PQ α) :
    Except HeapError (PQ α) :=
  if q.isEmptyQ then .error .containerIsEmpty
  else
    match q.root with
    | .leaf => .error .nullDeref
    | .node _ l r =>
      match mergeNodeE lt l r with
      | .error _ => .ok q
      | .ok t => .ok ⟨q.capacity - 1, t⟩

/-- merge(other) (lines 187-195) under a non-throwing comparator: the roots
are merged, the capacities added, and other is emptied. Returns the pair
(receiver, donor) after the call. -/
def mergeQs {α : Type} (lt : α → α → Bool) (q other : PQ α) : PQ α × PQ α :=
  (⟨q.capacity + other.capacity, mergeNode lt q.root other.root⟩,
   ⟨0, Tree.leaf⟩)

/-- Does v lose to the root of t under lt? true when t is absent: child not
strictly preferred over its parent. -/
def dominates {α : Type} (lt : α → α → Bool) (v : α) : Tree α → Bool
  | .leaf => true
  | .node w _ _ => !lt v w

/-- Heap-order invariant as a Boolean checker: every node dominates the roots
of both children, recursively. -/
def heapOrderedB {α : Type} (lt : α → α → Bool) : Tree α → Bool
  | .leaf => true
  | .node v l r =>
      dominates lt v l && dominates lt v r && heapOrderedB lt l && heapOrderedB lt r

/-- Asymmetry of the comparator: the guarantee a strict-weak-order comparator
(such as the default std::less) provides and the heap-order proof uses. -/
def Asymm {α : Type} (lt : α → α → Bool) : Prop :=
  ∀ x y : α, lt x y = true → lt y x = false

/-- The default comparator std::less for Nat payloads. -/
def natLt (x y : Nat) : Bool := decide (x < y)

/-- A comparator whose every invocation throws, used to exercise the
exception paths. -/
def failLt (_x _y : Nat) : Except Unit Bool := .error ()

/-- The container states reachable through the public interface starting from
the default constructor: push, successful pop, merge (either operand
afterwards), copy construction and copy assignment from reachable states. -/
inductive Reachable {α : Type} (lt : α → α → Bool) : PQ α → Prop where
  | init : Reachable lt emptyPQ
  | push (q : PQ α) (e : α) : Reachable lt q → Reachable lt (push lt q e)
  | pop (q q' : PQ α) : Reachable lt q → pop lt q = .ok q' → Reachable lt q'
  | mergeRecv (q p : PQ α) : Reachable lt q → Reachable lt p →
      Reachable lt (mergeQs lt q p).1
  | mergeDonor (q p : PQ α) : Reachable lt q → Reachable lt p →
      Reachable lt (mergeQs lt q p).2
  | copyOf (q : PQ α) : Reachable lt q → Reachable lt (copyCtor q)
  | assignOf (q p : PQ α) : Reachable lt q → Reachable lt p →
      Reachable lt (assign q p false)

/-!
Pointer-store model. The value-level model above cannot express aliasing, so
the deep-copy independence claim is settled against an explicit heap: nodes
live at numeric addresses in a store, operations read and write fields
through the store, and allocation hands out the next fresh address. Recursive
C++ functions become fuel-indexed store transformers; the specification
lemmas show that under the intended well-formedness any sufficient fuel makes
them succeed with the behaviour of the value-level functions.
-/

/-- The contents of one allocated LeftistNode: value and the two child
pointers. -/
structure NodeR (α : Type) where
  value : α
  ls : Option Nat
  rs : Option Nat
deriving DecidableEq

/-- The node store: what is allocated at each address. -/
abbrev Store (α : Type) := Nat → Option (NodeR α)

/-- Write the node at an (already meaningful) address. -/
def Store.write {α : Type} (σ : Store α) (a : Nat) (n : NodeR α) : Store α :=
  fun x => if x = a then some n else σ x

/-- Deallocate an address (delete). -/
def Store.free {α : Type} (σ : Store α) (a : Nat) : Store α :=
  fun x => if x = a then none else σ x

/-- Does the linked structure at p in σ lay out exactly the value tree t? -/
def reprB {α : Type} [DecidableEq α] (σ : Store α) : Option Nat → Tree α → Bool
  | none, .leaf => true
  | some _, .leaf => false
  | none, .node _ _ _ => false
  | some a, .node v l r =>
    match σ a with
    | none => false
    | some n => decide (n.value = v) && reprB σ n.ls l && reprB σ n.rs r

/-- The addresses of the nodes laid out at p, following the shape of t
(meaningful when reprB σ p t holds). -/
def raddrs {α : Type} (σ : Store α) : Option Nat → Tree α → List Nat
  | none, _ => []
  | some _, .leaf => []
  | some a, .node _ l r =>
    match σ a with
    | none => [a]
    | some n => a :: (raddrs σ n.ls l ++ raddrs σ n.rs r)

/-- Every address at or above next is unallocated: next is a fresh-allocation
frontier for the store. -/
def Bounded {α : Type} (σ : Store α) (next : Nat) : Prop :=
  ∀ a : Nat, next ≤ a → σ a = none

/-- Store-level MergeNode (lines 75-84), fuel-indexed: after the null checks
the local pointers are swapped when (*a < *b) so that a names the winner w;
then w->rs = MergeNode(w->rs, loser) and std::swap(w->ls, w->rs). Returns
none only on fuel exhaustion or a dangling read. -/
def mergeS {α : Type} (lt : α → α → Bool) :
    Nat → Store α → Option Nat → Option Nat → Option (Option Nat × Store α)
  | 0, _, _, _ => none
  | _ + 1, σ, none, b => some (b, σ)
  | _ + 1, σ, some a, none => some (some a, σ)
  | fuel + 1, σ, some a0, some b0 => do
    let na ← σ a0
    let nb ← σ b0
    let a := if lt na.value nb.value then b0 else a0
    let b := if lt na.value nb.value then a0 else b0
    let nw := if lt na.value nb.value then nb else na
    let (m, σ1) ← mergeS lt fuel σ nw.rs (some b)
    let σ2 := σ1.write a ⟨nw.value, nw.ls, m⟩
    let nw2 ← σ2 a
    some (some a, σ2.write a ⟨nw2.value, nw2.rs, nw2.ls⟩)

/-- Store-level copy (lines 90-94), fuel-indexed: per source node a fresh
node is allocated at the next free address with null children, and the
recursive copies of ls and rs are then linked in (the C++ writes the field
from inside the recursive call through the reference parameter). Returns the
new root, the store and the next fresh address. -/
def copyS {α : Type} : Nat → Store α → Nat → Option Nat →
    Option (Option Nat × Store α × Nat)
  | 0, _, _, _ => none
  | _ + 1, σ, next, none => some (none, σ, next)
  | fuel + 1, σ, next, some src => do
    let ns ← σ src
    let a := next
    let σ1 := σ.write a ⟨ns.value, none, none⟩
    let (pl, σ2, n2) ← copyS fuel σ1 (next + 1) ns.ls
    let σ3 := σ2.write a ⟨ns.value, pl, none⟩
    let (pr, σ4, n4) ← copyS fuel σ3 n2 ns.rs
    some (some a, σ4.write a ⟨ns.value, pl, pr⟩, n4)

/-- Store-level ClearNode (lines 47-52), fuel-indexed: release both subtrees
recursively, then delete the node itself. -/
def releaseS {α : Type} : Nat → Store α → Option Nat → Option (Store α)
  | 0, _, _ => none
  | _ + 1, σ, none => some σ
  | fuel + 1, σ, some a => do
    let n ← σ a
    let σ1 ← releaseS fuel σ n.ls
    let σ2 ← releaseS fuel σ1 n.rs
    some (σ2.free a)

/-- The container record in the store model: the cached capacity and the root
pointer (the record itself lives outside the shared node store, as the C++
object's own members). -/
structure PQS where
  capacity : Nat
  root : Option Nat
deriving DecidableEq

/-- Store-level top(): reads root->value from the store. -/
def topS {α : Type} (σ : Store α) (q : PQS) : Except HeapError α :=
  if q.capacity == 0 then .error .containerIsEmpty
  else
    match q.root with
    | none => .error .nullDeref
    | some a =>
      match σ a with
      | none => .error .nullDeref
      | some n => .ok n.value

/-- Store-level push (lines 144-153): allocate the node at the fresh address,
merge it below root, increment capacity. -/
def pushS {α : Type} (lt : α → α → Bool) (fuel : Nat) (σ : Store α)
    (next : Nat) (q : PQS) (e : α) : Option (PQS × Store α × Nat) := do
  let σ1 := σ.write next ⟨e, none, none⟩
  let (m, σ2) ← mergeS lt fuel σ1 q.root (some next)
  some (⟨q.capacity + 1, m⟩, σ2, next + 1)

/-- Store-level pop (lines 158-169): on an empty queue the exception leaves
the state unchanged; otherwise merge the root's children, decrement the
capacity and delete exactly the old root node. -/
def popS {α : Type} (lt : α → α → Bool) (fuel : Nat) (σ : Store α)
    (next : Nat) (q : PQS) : Option (PQS × Store α × Nat) :=
  if q.capacity = 0 then some (q, σ, next)
  else do
    let a ← q.root
    let n ← σ a
    let (m, σ1) ← mergeS lt fuel σ n.ls n.rs
    some (⟨q.capacity - 1, m⟩, σ1.free a, next)

/-- A mutation of the copied heap: push a value or pop. -/
inductive OpK (α : Type) where
  | pushOp (e : α)
  | popOp

/-- Run a sequence of mutations against a container record and the shared
store. The fuel q.capacity + 2 strictly exceeds the merge measure of both
push (tree of capacity nodes plus a singleton) and pop (the two subtrees of
the root) whenever capacity counts the tree's nodes, so it never cuts a
well-formed run short. -/
def runOps {α : Type} (lt : α → α → Bool) :
    List (OpK α) → Store α → Nat → PQS → Option (PQS × Store α × Nat)
  | [], σ, next, q => some (q, σ, next)
  | op :: ops, σ, next, q => do
    let (q', σ', next') ←
      match op with
      | .pushOp e => pushS lt (q.capacity + 2) σ next q e
      | .popOp => popS lt (q.capacity + 2) σ next q
    runOps lt ops σ' next' q'

/-- Store-level well-formedness of one container: its pointer structure lays
out the value tree t, without internal sharing, and the cached capacity is
the true node count. -/
def WFQ {α : Type} [DecidableEq α] (σ : Store α) (q : PQS) (t : Tree α) : Prop :=
  reprB σ q.root t = true ∧ (raddrs σ q.root t).Nodup ∧ q.capacity = t.count

/-- A concrete one-node store: address 0 holds value 5, nothing else is
allocated. Used to instantiate the copy-independence theorem. -/
def witStore : Store Nat := fun x => if x = 0 then some ⟨5, none, none⟩ else none

/-- A concrete three-element heap used to exercise the comparator-failure
path of pop. -/
def q3 : PQ Nat :=
  ⟨3, Tree.node 5 (Tree.node 3 Tree.leaf Tree.leaf) (Tree.node 1 Tree.leaf Tree.leaf)⟩

/-! Basic lemmas about the embedded operations. -/

theorem Tree.copy_eq {α : Type} (t : Tree α) : t.copy = t := by
  induction t with
  | leaf => rfl
  | node v l r ihl ihr => simp [Tree.copy, ihl, ihr]

theorem mergeNode_leaf_left {α : Type} (lt : α → α → Bool) (b : Tree α) :
    mergeNode lt Tree.leaf b = b := by
  simp [mergeNode]

theorem mergeNode_leaf_right {α : Type} (lt : α → α → Bool) (a : Tree α) :
    mergeNode lt a Tree.leaf = a := by
  cases a <;> simp [mergeNode]

theorem mergeNode_node {α : Type} (lt : α → α → Bool) (av : α) (al ar : Tree α)
    (bv : α) (bl br : Tree α) :
    mergeNode lt (Tree.node av al ar) (Tree.node bv bl br) =
      if lt av bv then Tree.node bv (mergeNode lt br (Tree.node av al ar)) bl
      else Tree.node av (mergeNode lt ar (Tree.node bv bl br)) al := by
  rw [mergeNode]

theorem count_mergeNode {α : Type} (lt : α → α → Bool) (a b : Tree α) :
    (mergeNode lt a b).count = a.count + b.count := by
  induction a, b using mergeNode.induct lt with
  | case1 b => simp [mergeNode_leaf_left, Tree.count]
  | case2 a _ => simp [mergeNode_leaf_right, Tree.count]
  | case3 av al ar bv bl br hlt ih =>
    rw [mergeNode_node, if_pos hlt]
    simp [Tree.count, ih]
    omega
  | case4 av al ar bv bl br hlt ih =>
    rw [mergeNode_node, if_neg hlt]
    simp [Tree.count, ih]
    omega

theorem elems_mergeNode {α : Type} (lt : α → α → Bool) (a b : Tree α) :
    (mergeNode lt a b).elems = a.elems + b.elems := by
  induction a, b using mergeNode.induct lt with
  | case1 b => simp [mergeNode_leaf_left, Tree.elems]
  | case2 a _ => simp [mergeNode_leaf_right, Tree.elems]
  | case3 av al ar bv bl br hlt ih =>
    rw [mergeNode_node, if_pos hlt]
    simp only [Tree.elems, ih, ← Multiset.singleton_add]
    abel
  | case4 av al ar bv bl br hlt ih =>
    rw [mergeNode_node, if_neg hlt]
    simp only [Tree.elems, ih, ← Multiset.singleton_add]
    abel

theorem skewMergeSpec_eq_mergeNode {α : Type} (lt : α → α → Bool) (a b : Tree α) :
    skewMergeSpec lt a b = mergeNode lt a b := by
  induction a, b using mergeNode.induct lt with
  | case1 b => simp [mergeNode_leaf_left, skewMergeSpec]
  | case2 a h =>
    cases a with
    | leaf => simp [mergeNode_leaf_left, skewMergeSpec]
    | node v l r => simp [mergeNode_leaf_right, skewMergeSpec]
  | case3 av al ar bv bl br hlt ih =>
    rw [mergeNode_node, if_pos hlt, skewMergeSpec, if_pos hlt, ih, swapLR]
  | case4 av al ar bv bl br hlt ih =>
    rw [mergeNode_node, if_neg hlt, skewMergeSpec, if_neg hlt, ih, swapLR]

theorem dominates_mergeNode {α : Type} (lt : α → α → Bool) (v : α) (a b : Tree α)
    (ha : dominates lt v a = true) (hb : dominates lt v b = true) :
    dominates lt v (mergeNode lt a b) = true := by
  cases a with
  | leaf => simpa [mergeNode_leaf_left]
  | node av al ar =>
    cases b with
    | leaf => simpa [mergeNode_leaf_right]
    | node bv bl br =>
      rw [mergeNode_node]
      by_cases h : lt av bv = true
      · rw [if_pos h]; simpa [dominates] using hb
      · rw [if_neg h]; simpa [dominates] using ha

theorem heapOrderedB_mergeNode {α : Type} (lt : α → α → Bool) (hasym : Asymm lt)
    (a b : Tree α) (ha : heapOrderedB lt a = true) (hb : heapOrderedB lt b = true) :
    heapOrderedB lt (mergeNode lt a b) = true := by
  induction a, b using mergeNode.induct lt with
  | case1 b => simpa [mergeNode_leaf_left]
  | case2 a _ => simpa [mergeNode_leaf_right]
  | case3 av al ar bv bl br hlt ih =>
    rw [mergeNode_node, if_pos hlt]
    simp only [heapOrderedB, Bool.and_eq_true] at ha hb ⊢
    obtain ⟨⟨⟨hdl, hdr⟩, hol⟩, hor⟩ := hb
    refine ⟨⟨⟨?_, hdl⟩, ?_⟩, hol⟩
    · exact dominates_mergeNode lt bv br (Tree.node av al ar) hdr
        (by simp [dominates, hasym av bv hlt])
    · exact ih hor (by simp only [heapOrderedB, Bool.and_eq_true]; exact ha)
  | case4 av al ar bv bl br hlt ih =>
    rw [mergeNode_node, if_neg hlt]
    simp only [heapOrderedB, Bool.and_eq_true] at ha hb ⊢
    obtain ⟨⟨⟨hdl, hdr⟩, hol⟩, hor⟩ := ha
    refine ⟨⟨⟨?_, hdl⟩, ?_⟩, hol⟩
    · exact dominates_mergeNode lt av ar (Tree.node bv bl br) hdr
        (by simp only [dominates]; simp only [Bool.not_eq_true] at hlt
            simp [hlt])
    · exact ih hor (by simp only [heapOrderedB, Bool.and_eq_true]; exact hb)

/-- Inversion of a successful pop: the queue was non-empty with a node root,
and the result merges the two children with capacity one lower. -/
theorem pop_ok_inv {α : Type} (lt : α → α → Bool) (q q' : PQ α)
    (h : pop lt q = .ok q') :
    q.capacity ≠ 0 ∧ ∃ v l r, q.root = Tree.node v l r ∧
      q' = ⟨q.capacity - 1, mergeNode lt l r⟩ := by
  unfold pop at h
  by_cases he : q.isEmptyQ
  · simp [he] at h
  · rw [if_neg he] at h
    cases hr : q.root with
    | leaf => rw [hr] at h; simp at h
    | node v l r =>
      rw [hr] at h
      simp only [Except.ok.injEq] at h
      refine ⟨by simpa [PQ.isEmptyQ] using he, v, l, r, rfl, h.symm⟩

/-- Size consistency along every reachable state. -/
theorem reachable_count {α : Type} (lt : α → α → Bool) (q : PQ α)
    (h : Reachable lt q) : q.capacity = q.root.count := by
  induction h with
  | init => rfl
  | push p e _ ih =>
    simp [SkewHeapPQ.push, count_mergeNode, Tree.count, ih]
  | pop p q' _ hpop ih =>
    obtain ⟨hne, v, l, r, hroot, hq'⟩ := pop_ok_inv lt p q' hpop
    subst hq'
    rw [hroot, Tree.count] at ih
    simp [count_mergeNode]
    omega
  | mergeRecv p o _ _ ih₁ ih₂ => simp [mergeQs, count_mergeNode, ih₁, ih₂]
  | mergeDonor p o _ _ ih₁ ih₂ => simp [mergeQs, Tree.count]
  | copyOf p _ ih => simp [copyCtor, Tree.copy_eq, ih]
  | assignOf p o _ _ ih₁ ih₂ => simp [assign, Tree.copy_eq, ih₂]

/-- Heap order along every reachable state, for an asymmetric comparator. -/
theorem reachable_heapOrderedB {α : Type} (lt : α → α → Bool) (hasym : Asymm lt)
    (q : PQ α) (h : Reachable lt q) : heapOrderedB lt q.root = true := by
  induction h with
  | init => rfl
  | push p e _ ih =>
    exact heapOrderedB_mergeNode lt hasym _ _ ih (by simp [heapOrderedB, dominates])
  | pop p q' _ hpop ih =>
    obtain ⟨hne, v, l, r, hroot, hq'⟩ := pop_ok_inv lt p q' hpop
    subst hq'
    rw [hroot] at ih
    simp only [heapOrderedB, Bool.and_eq_true] at ih
    exact heapOrderedB_mergeNode lt hasym _ _ ih.1.2 ih.2
  | mergeRecv p o _ _ ih₁ ih₂ => exact heapOrderedB_mergeNode lt hasym _ _ ih₁ ih₂
  | mergeDonor p o _ _ ih₁ ih₂ => rfl
  | copyOf p _ ih => simpa [copyCtor, Tree.copy_eq]
  | assignOf p o _ _ ih₁ ih₂ => simpa [assign, Tree.copy_eq]

/-- With the default less-than comparator on Nat, heap order makes the root a
maximum of the stored multiset. -/
theorem heapOrderedB_le_root (t : Tree Nat) :
    heapOrderedB natLt t = true →
    ∀ v l r, t = Tree.node v l r → ∀ x ∈ t.elems, x ≤ v := by
  induction t with
  | leaf => intro _ v l r h; simp at h
  | node w cl cr ihl ihr =>
    intro ht v l r heq x hx
    injection heq with h₁ h₂ h₃
    subst h₁
    simp only [heapOrderedB, Bool.and_eq_true] at ht
    simp only [Tree.elems, Multiset.mem_cons, Multiset.mem_add] at hx
    rcases hx with rfl | hx | hx
    · exact Nat.le_refl x
    · cases cl with
      | leaf => simp [Tree.elems] at hx
      | node lv ll lr =>
        have hx' : x ≤ lv := ihl ht.1.2 lv ll lr rfl x hx
        have hd : ¬ w < lv := by simpa [dominates, natLt] using ht.1.1.1
        omega
    · cases cr with
      | leaf => simp [Tree.elems] at hx
      | node rv rl rr =>
        have hx' : x ≤ rv := ihr ht.2 rv rl rr rfl x hx
        have hd : ¬ w < rv := by simpa [dominates, natLt] using ht.1.1.2
        omega

/-! Store-model lemmas. -/

theorem reprB_some_node {α : Type} [DecidableEq α] (σ : Store α) (a : Nat)
    (v : α) (l r : Tree α) :
    reprB σ (some a) (Tree.node v l r) = true ↔
      ∃ n, σ a = some n ∧ n.value = v ∧
        reprB σ n.ls l = true ∧ reprB σ n.rs r = true := by
  simp only [reprB]
  cases σ a <;> simp [and_assoc]

theorem reprB_none_iff {α : Type} [DecidableEq α] (σ : Store α) (t : Tree α) :
    reprB σ none t = true ↔ t = Tree.leaf := by
  cases t <;> simp [reprB]

theorem reprB_some_leaf {α : Type} [DecidableEq α] (σ : Store α) (a : Nat) :
    reprB σ (some a) Tree.leaf = false := rfl

theorem raddrs_none {α : Type} (σ : Store α) (t : Tree α) :
    raddrs σ none t = [] := by
  cases t <;> rfl

theorem raddrs_some_leaf {α : Type} (σ : Store α) (a : Nat) :
    raddrs σ (some a) Tree.leaf = [] := rfl

theorem raddrs_some_node {α : Type} (σ : Store α) (a : Nat) (v : α)
    (l r : Tree α) (n : NodeR α) (hn : σ a = some n) :
    raddrs σ (some a) (Tree.node v l r) =
      a :: (raddrs σ n.ls l ++ raddrs σ n.rs r) := by
  simp [raddrs, hn]

theorem raddrs_allocated {α : Type} [DecidableEq α] (σ : Store α) (t : Tree α) :
    ∀ p, reprB σ p t = true → ∀ a ∈ raddrs σ p t, ∃ n, σ a = some n := by
  induction t with
  | leaf =>
    intro p hp a ha
    cases p with
    | none => simp [raddrs_none] at ha
    | some b => simp [reprB_some_leaf] at hp
  | node v l r ihl ihr =>
    intro p hp a ha
    cases p with
    | none => simp [reprB_none_iff] at hp
    | some b =>
      obtain ⟨n, hb, hv, hl, hr⟩ := (reprB_some_node σ b v l r).1 hp
      rw [raddrs_some_node σ b v l r n hb] at ha
      simp only [List.mem_cons, List.mem_append] at ha
      rcases ha with rfl | ha | ha
      · exact ⟨n, hb⟩
      · exact ihl n.ls hl a ha
      · exact ihr n.rs hr a ha

/-- Frame: a store change outside a tree's footprint preserves both its
representation and its footprint. -/
theorem reprB_frame {α : Type} [DecidableEq α] (σ σ' : Store α) (t : Tree α) :
    ∀ p, reprB σ p t = true → (∀ a ∈ raddrs σ p t, σ' a = σ a) →
      reprB σ' p t = true ∧ raddrs σ' p t = raddrs σ p t := by
  induction t with
  | leaf =>
    intro p hp hagree
    cases p with
    | none => exact ⟨rfl, rfl⟩
    | some b => simp [reprB_some_leaf] at hp
  | node v l r ihl ihr =>
    intro p hp hagree
    cases p with
    | none => simp [reprB_none_iff] at hp
    | some b =>
      obtain ⟨n, hb, hv, hl, hr⟩ := (reprB_some_node σ b v l r).1 hp
      rw [raddrs_some_node σ b v l r n hb] at hagree
      simp only [List.mem_cons, List.mem_append] at hagree
      have hb' : σ' b = some n := by rw [hagree b (Or.inl rfl), hb]
      have ihl' := ihl n.ls hl (fun a ha => hagree a (Or.inr (Or.inl ha)))
      have ihr' := ihr n.rs hr (fun a ha => hagree a (Or.inr (Or.inr ha)))
      constructor
      · exact (reprB_some_node σ' b v l r).2 ⟨n, hb', hv, ihl'.1, ihr'.1⟩
      · rw [raddrs_some_node σ' b v l r n hb', raddrs_some_node σ b v l r n hb,
          ihl'.2, ihr'.2]

theorem Store.write_same {α : Type} (σ : Store α) (a : Nat) (n : NodeR α) :
    σ.write a n a = some n := by
  simp [Store.write]

theorem Store.write_other {α : Type} (σ : Store α) (a x : Nat) (n : NodeR α)
    (h : x ≠ a) : σ.write a n x = σ x := by
  simp [Store.write, h]

theorem Store.free_same {α : Type} (σ : Store α) (a : Nat) :
    σ.free a a = none := by
  simp [Store.free]

theorem Store.free_other {α : Type} (σ : Store α) (a x : Nat) (h : x ≠ a) :
    σ.free a x = σ x := by
  simp [Store.free, h]

/-- Unfolding of one store-merge step in the branch where the second operand
wins the comparison (b becomes the root). -/
theorem mergeS_step_true {α : Type} (lt : α → α → Bool) (fuel : Nat)
    (σ σ1 : Store α) (a0 b0 : Nat) (na nb : NodeR α) (m : Option Nat)
    (ha0 : σ a0 = some na) (hb0 : σ b0 = some nb)
    (hcmp : lt na.value nb.value = true)
    (hrec : mergeS lt fuel σ nb.rs (some a0) = some (m, σ1)) :
    mergeS lt (fuel + 1) σ (some a0) (some b0) =
      some (some b0,
        (σ1.write b0 ⟨nb.value, nb.ls, m⟩).write b0 ⟨nb.value, m, nb.ls⟩) := by
  simp [mergeS, ha0, hb0, hcmp, hrec, Store.write_same]

/-- Unfolding of one store-merge step in the branch where the first operand
keeps the root (comparison false, including ties). -/
theorem mergeS_step_false {α : Type} (lt : α → α → Bool) (fuel : Nat)
    (σ σ1 : Store α) (a0 b0 : Nat) (na nb : NodeR α) (m : Option Nat)
    (ha0 : σ a0 = some na) (hb0 : σ b0 = some nb)
    (hcmp : lt na.value nb.value = false)
    (hrec : mergeS lt fuel σ na.rs (some b0) = some (m, σ1)) :
    mergeS lt (fuel + 1) σ (some a0) (some b0) =
      some (some a0,
        (σ1.write a0 ⟨na.value, na.ls, m⟩).write a0 ⟨na.value, m, na.ls⟩) := by
  simp [mergeS, ha0, hb0, hcmp, hrec, Store.write_same]

/-- Specification of the store-level merge: on two disjoint well-laid-out
trees, with fuel beyond the combined node count, it succeeds, lays out
exactly the value-level mergeNode of the two trees on the union of the two
footprints, and writes nothing outside them. -/
theorem mergeS_spec {α : Type} [DecidableEq α] (lt : α → α → Bool) :
    ∀ (fuel : Nat) (t₁ t₂ : Tree α) (σ : Store α) (p₁ p₂ : Option Nat),
      reprB σ p₁ t₁ = true → reprB σ p₂ t₂ = true →
      (raddrs σ p₁ t₁ ++ raddrs σ p₂ t₂).Nodup →
      t₁.count + t₂.count < fuel →
      ∃ p σ', mergeS lt fuel σ p₁ p₂ = some (p, σ') ∧
        reprB σ' p (mergeNode lt t₁ t₂) = true ∧
        (raddrs σ' p (mergeNode lt t₁ t₂)).Perm
          (raddrs σ p₁ t₁ ++ raddrs σ p₂ t₂) ∧
        ∀ x : Nat, x ∉ raddrs σ p₁ t₁ → x ∉ raddrs σ p₂ t₂ → σ' x = σ x := by
  intro fuel
  induction fuel with
  | zero => intro t₁ t₂ σ p₁ p₂ _ _ _ hm; omega
  | succ fuel ih =>
    intro t₁ t₂ σ p₁ p₂ h₁ h₂ hnd hm
    cases t₁ with
    | leaf =>
      cases p₁ with
      | some a => simp [reprB_some_leaf] at h₁
      | none =>
        refine ⟨p₂, σ, by cases p₂ <;> rfl, ?_, ?_, fun x _ _ => rfl⟩
        · rw [mergeNode_leaf_left]; exact h₂
        · rw [mergeNode_leaf_left, raddrs_none, List.nil_append]
    | node av al ar =>
      cases p₁ with
      | none => simp [reprB_none_iff] at h₁
      | some a0 =>
        obtain ⟨na, ha0, hav, hal, har⟩ := (reprB_some_node σ a0 av al ar).1 h₁
        cases t₂ with
        | leaf =>
          cases p₂ with
          | some b => simp [reprB_some_leaf] at h₂
          | none =>
            refine ⟨some a0, σ, rfl, ?_, ?_, fun x _ _ => rfl⟩
            · rw [mergeNode_leaf_right]; exact h₁
            · rw [mergeNode_leaf_right, raddrs_none, List.append_nil]
        | node bv bl br =>
          cases p₂ with
          | none => simp [reprB_none_iff] at h₂
          | some b0 =>
            obtain ⟨nb, hb0, hbv, hbl, hbr⟩ := (reprB_some_node σ b0 bv bl br).1 h₂
            have hL1 : raddrs σ (some a0) (Tree.node av al ar) =
                a0 :: (raddrs σ na.ls al ++ raddrs σ na.rs ar) :=
              raddrs_some_node σ a0 av al ar na ha0
            have hL2 : raddrs σ (some b0) (Tree.node bv bl br) =
                b0 :: (raddrs σ nb.ls bl ++ raddrs σ nb.rs br) :=
              raddrs_some_node σ b0 bv bl br nb hb0
            rw [hL1, hL2] at hnd
            obtain ⟨hndA, hndB, hdisj⟩ := List.nodup_append.1 hnd
            obtain ⟨ha0nm, hndLaRa⟩ := List.nodup_cons.1 hndA
            obtain ⟨hb0nm, hndLbRb⟩ := List.nodup_cons.1 hndB
            by_cases hcmp : lt av bv = true
            · -- the second operand wins the comparison and roots the result
              have hndrec : (raddrs σ nb.rs br ++
                  raddrs σ (some a0) (Tree.node av al ar)).Nodup := by
                rw [hL1]
                refine List.nodup_append.2
                  ⟨(List.nodup_append.1 hndLbRb).2.1, hndA, ?_⟩
                refine List.disjoint_of_subset_left ?_ hdisj.symm
                intro x hx
                simp only [List.mem_cons, List.mem_append]
                exact Or.inr (Or.inr hx)
              obtain ⟨m, σ1, hrec, hrepM, hfpM, hmod⟩ :=
                ih br (Tree.node av al ar) σ nb.rs (some a0) hbr h₁ hndrec
                  (by simp only [Tree.count] at hm ⊢; omega)
              have hb0notM : b0 ∉
                  raddrs σ1 m (mergeNode lt br (Tree.node av al ar)) := by
                intro hx
                have hx' := hfpM.subset hx
                rw [hL1] at hx'
                rcases List.mem_append.1 hx' with hx' | hx'
                · exact hb0nm (List.mem_append.2 (Or.inr hx'))
                · exact hdisj hx' (List.mem_cons_self _ _)
              have hσ3ne : ∀ x : Nat, x ≠ b0 →
                  ((σ1.write b0 ⟨nb.value, nb.ls, m⟩).write b0
                    ⟨nb.value, m, nb.ls⟩) x = σ1 x := fun x hx => by
                rw [Store.write_other _ _ _ _ hx, Store.write_other _ _ _ _ hx]
              have hframeM := reprB_frame σ1
                ((σ1.write b0 ⟨nb.value, nb.ls, m⟩).write b0 ⟨nb.value, m, nb.ls⟩)
                (mergeNode lt br (Tree.node av al ar)) m hrepM
                (fun x hx => hσ3ne x (fun hxe => hb0notM (hxe ▸ hx)))
              have hagreeLb : ∀ x ∈ raddrs σ nb.ls bl,
                  ((σ1.write b0 ⟨nb.value, nb.ls, m⟩).write b0
                    ⟨nb.value, m, nb.ls⟩) x = σ x := by
                intro x hx
                have hxb0 : x ≠ b0 := fun hxe => by
                  exact hb0nm (List.mem_append.2 (Or.inl (hxe ▸ hx)))
                rw [hσ3ne x hxb0]
                refine hmod x ?_ ?_
                · exact fun hxr => (List.nodup_append.1 hndLbRb).2.2 hx hxr
                · intro hxA
                  rw [hL1] at hxA
                  exact hdisj hxA
                    (List.mem_cons_of_mem b0 (List.mem_append.2 (Or.inl hx)))
              have hframeLb := reprB_frame σ
                ((σ1.write b0 ⟨nb.value, nb.ls, m⟩).write b0 ⟨nb.value, m, nb.ls⟩)
                bl nb.ls hbl hagreeLb
              refine ⟨some b0,
                (σ1.write b0 ⟨nb.value, nb.ls, m⟩).write b0 ⟨nb.value, m, nb.ls⟩,
                mergeS_step_true lt fuel σ σ1 a0 b0 na nb m ha0 hb0
                  (by rw [hav, hbv]; exact hcmp) hrec, ?_, ?_, ?_⟩
              · rw [mergeNode_node, if_pos hcmp]
                exact (reprB_some_node _ b0 bv _ bl).2
                  ⟨⟨nb.value, m, nb.ls⟩, Store.write_same _ _ _, hbv,
                    hframeM.1, hframeLb.1⟩
              · rw [mergeNode_node, if_pos hcmp, hL1, hL2]
                rw [raddrs_some_node _ b0 bv _ bl ⟨nb.value, m, nb.ls⟩
                  (Store.write_same _ _ _)]
                show (b0 :: (raddrs _ m _ ++ raddrs _ nb.ls bl)).Perm _
                rw [hframeM.2, hframeLb.2]
                have hfpM' := hfpM
                rw [hL1] at hfpM'
                rw [← Multiset.coe_eq_coe] at hfpM' ⊢
                simp only [← Multiset.cons_coe, ← Multiset.coe_add,
                  ← Multiset.singleton_add] at hfpM' ⊢
                rw [hfpM']
                abel
              · intro x hx1 hx2
                rw [hL1] at hx1
                rw [hL2] at hx2
                have hxb0 : x ≠ b0 := fun hxe => hx2 (hxe ▸ List.mem_cons_self _ _)
                rw [hσ3ne x hxb0]
                refine hmod x ?_ ?_
                · intro hxr
                  exact hx2 (List.mem_cons_of_mem b0 (List.mem_append.2 (Or.inr hxr)))
                · rw [hL1]; exact hx1
            · -- the first operand keeps the root (including ties)
              have hcmpf : lt av bv = false := by
                simpa using hcmp
              have hndrec : (raddrs σ na.rs ar ++
                  raddrs σ (some b0) (Tree.node bv bl br)).Nodup := by
                rw [hL2]
                refine List.nodup_append.2
                  ⟨(List.nodup_append.1 hndLaRa).2.1, hndB, ?_⟩
                refine List.disjoint_of_subset_left ?_ hdisj
                intro x hx
                simp only [List.mem_cons, List.mem_append]
                exact Or.inr (Or.inr hx)
              obtain ⟨m, σ1, hrec, hrepM, hfpM, hmod⟩ :=
                ih ar (Tree.node bv bl br) σ na.rs (some b0) har h₂ hndrec
                  (by simp only [Tree.count] at hm ⊢; omega)
              have ha0notM : a0 ∉
                  raddrs σ1 m (mergeNode lt ar (Tree.node bv bl br)) := by
                intro hx
                have hx' := hfpM.subset hx
                rw [hL2] at hx'
                rcases List.mem_append.1 hx' with hx' | hx'
                · exact ha0nm (List.mem_append.2 (Or.inr hx'))
                · exact hdisj (List.mem_cons_self _ _) hx'
              have hσ3ne : ∀ x : Nat, x ≠ a0 →
                  ((σ1.write a0 ⟨na.value, na.ls, m⟩).write a0
                    ⟨na.value, m, na.ls⟩) x = σ1 x := fun x hx => by
                rw [Store.write_other _ _ _ _ hx, Store.write_other _ _ _ _ hx]
              have hframeM := reprB_frame σ1
                ((σ1.write a0 ⟨na.value, na.ls, m⟩).write a0 ⟨na.value, m, na.ls⟩)
                (mergeNode lt ar (Tree.node bv bl br)) m hrepM
                (fun x hx => hσ3ne x (fun hxe => ha0notM (hxe ▸ hx)))
              have hagreeLa : ∀ x ∈ raddrs σ na.ls al,
                  ((σ1.write a0 ⟨na.value, na.ls, m⟩).write a0
                    ⟨na.value, m, na.ls⟩) x = σ x := by
                intro x hx
                have hxa0 : x ≠ a0 := fun hxe => by
                  exact ha0nm (List.mem_append.2 (Or.inl (hxe ▸ hx)))
                rw [hσ3ne x hxa0]
                refine hmod x ?_ ?_
                · exact fun hxr => (List.nodup_append.1 hndLaRa).2.2 hx hxr
                · intro hxB
                  rw [hL2] at hxB
                  exact hdisj
                    (List.mem_cons_of_mem a0 (List.mem_append.2 (Or.inl hx))) hxB
              have hframeLa := reprB_frame σ
                ((σ1.write a0 ⟨na.value, na.ls, m⟩).write a0 ⟨na.value, m, na.ls⟩)
                al na.ls hal hagreeLa
              refine ⟨some a0,
                (σ1.write a0 ⟨na.value, na.ls, m⟩).write a0 ⟨na.value, m, na.ls⟩,
                mergeS_step_false lt fuel σ σ1 a0 b0 na nb m ha0 hb0
                  (by rw [hav, hbv]; exact hcmpf) hrec, ?_, ?_, ?_⟩
              · rw [mergeNode_node, if_neg hcmp]
                exact (reprB_some_node _ a0 av _ al).2
                  ⟨⟨na.value, m, na.ls⟩, Store.write_same _ _ _, hav,
                    hframeM.1, hframeLa.1⟩
              · rw [mergeNode_node, if_neg hcmp, hL1, hL2]
                rw [raddrs_some_node _ a0 av _ al ⟨na.value, m, na.ls⟩
                  (Store.write_same _ _ _)]
                show (a0 :: (raddrs _ m _ ++ raddrs _ na.ls al)).Perm _
                rw [hframeM.2, hframeLa.2]
                have hfpM' := hfpM
                rw [hL2] at hfpM'
                rw [← Multiset.coe_eq_coe] at hfpM' ⊢
                simp only [← Multiset.cons_coe, ← Multiset.coe_add,
                  ← Multiset.singleton_add] at hfpM' ⊢
                rw [hfpM']
                abel
              · intro x hx1 hx2
                rw [hL1] at hx1
                rw [hL2] at hx2
                have hxa0 : x ≠ a0 := fun hxe => hx1 (hxe ▸ List.mem_cons_self _ _)
                rw [hσ3ne x hxa0]
                refine hmod x ?_ ?_
                · intro hxr
                  exact hx1 (List.mem_cons_of_mem a0 (List.mem_append.2 (Or.inr hxr)))
                · rw [hL2]; exact hx2

theorem range1_append (s m n : Nat) :
    List.range' s m ++ List.range' (s + m) n = List.range' s (m + n) := by
  have := List.range'_append s m n 1
  simpa [Nat.add_comm] using this

theorem range1_cons (s n : Nat) :
    List.range' s (n + 1) = s :: List.range' (s + 1) n := by
  simpa using List.range'_succ s n 1

/-- Specification of the store-level deep copy: on a well-laid-out source
tree and a correct allocation frontier, it succeeds, lays out the same value
tree on exactly the fresh address block, touches no previously allocated
address, and advances the frontier by the node count. -/
theorem copyS_spec {α : Type} [DecidableEq α] :
    ∀ (fuel : Nat) (t : Tree α) (σ : Store α) (next : Nat) (src : Option Nat),
      reprB σ src t = true → Bounded σ next → t.count < fuel →
      ∃ p σ' next', copyS fuel σ next src = some (p, σ', next') ∧
        next' = next + t.count ∧
        reprB σ' p t = true ∧
        raddrs σ' p t = List.range' next t.count ∧
        (∀ x : Nat, x < next → σ' x = σ x) ∧
        Bounded σ' next' := by
  intro fuel
  induction fuel with
  | zero => intro t σ next src _ _ hm; omega
  | succ fuel ih =>
    intro t σ next src hrep hbd hm
    cases t with
    | leaf =>
      cases src with
      | some s => simp [reprB_some_leaf] at hrep
      | none =>
        exact ⟨none, σ, next, rfl, by simp [Tree.count], rfl,
          by rw [raddrs_none]; simp [Tree.count], fun x _ => rfl, by
            simpa [Tree.count] using hbd⟩
    | node v l r =>
      cases src with
      | none => simp [reprB_none_iff] at hrep
      | some s =>
        obtain ⟨ns, hs, hv, hl, hr⟩ := (reprB_some_node σ s v l r).1 hrep
        -- any address of an allocated tree lies below the frontier
        have hbelow : ∀ (u : Tree α) (p : Option Nat), reprB σ p u = true →
            ∀ x ∈ raddrs σ p u, x < next := by
          intro u p hu x hx
          obtain ⟨n, hn⟩ := raddrs_allocated σ u p hu x hx
          by_contra hge
          rw [hbd x (by omega)] at hn
          exact Option.noConfusion hn
        -- step 1: allocate the root copy with null children
        have hrep1 : reprB (σ.write next ⟨ns.value, none, none⟩) ns.ls l = true ∧
            raddrs (σ.write next ⟨ns.value, none, none⟩) ns.ls l =
              raddrs σ ns.ls l := by
          refine reprB_frame σ _ l ns.ls hl ?_
          intro x hx
          exact Store.write_other σ next x _
            (by have := hbelow l ns.ls hl x hx; omega)
        have hbd1 : Bounded (σ.write next ⟨ns.value, none, none⟩) (next + 1) := by
          intro x hxge
          rw [Store.write_other σ next x _ (by omega)]
          exact hbd x (by omega)
        simp only [Tree.count] at hm
        -- step 2: copy the left subtree into fresh addresses
        obtain ⟨pl, σ2, n2, hcl, hn2, hrepl2, hfpl2, hagree2, hbd2⟩ :=
          ih l (σ.write next ⟨ns.value, none, none⟩) (next + 1) ns.ls
            hrep1.1 hbd1 (by omega)
        -- step 3: link the left copy into the root copy
        have hσ3ne : ∀ x : Nat, x ≠ next →
            (σ2.write next ⟨ns.value, pl, none⟩) x = σ2 x :=
          fun x hx => Store.write_other σ2 next x _ hx
        have hrepr3 : reprB (σ2.write next ⟨ns.value, pl, none⟩) ns.rs r = true ∧
            raddrs (σ2.write next ⟨ns.value, pl, none⟩) ns.rs r =
              raddrs σ ns.rs r := by
          refine reprB_frame σ _ r ns.rs hr ?_
          intro x hx
          have hxlt : x < next := hbelow r ns.rs hr x hx
          rw [hσ3ne x (by omega), hagree2 x (by omega),
            Store.write_other σ next x _ (by omega)]
        have hbd3 : Bounded (σ2.write next ⟨ns.value, pl, none⟩) n2 := by
          intro x hxge
          rw [hσ3ne x (by omega)]
          exact hbd2 x hxge
        -- step 4: copy the right subtree
        obtain ⟨pr, σ4, n4, hcr, hn4, hrepr4, hfpr4, hagree4, hbd4⟩ :=
          ih r (σ2.write next ⟨ns.value, pl, none⟩) n2 ns.rs
            hrepr3.1 hbd3 (by omega)
        -- step 5: link the right copy in
        have hσ5ne : ∀ x : Nat, x ≠ next →
            (σ4.write next ⟨ns.value, pl, pr⟩) x = σ4 x :=
          fun x hx => Store.write_other σ4 next x _ hx
        -- the left copy block survives steps 3-5
        have hframel : reprB (σ4.write next ⟨ns.value, pl, pr⟩) pl l = true ∧
            raddrs (σ4.write next ⟨ns.value, pl, pr⟩) pl l =
              raddrs σ2 pl l := by
          refine reprB_frame σ2 _ l pl hrepl2 ?_
          intro x hx
          have hxr : x ∈ List.range' (next + 1) l.count := by rw [← hfpl2]; exact hx
          rw [List.mem_range'_1] at hxr
          rw [hσ5ne x (by omega), hagree4 x (by omega), hσ3ne x (by omega)]
        -- the right copy block survives step 5
        have hframer : reprB (σ4.write next ⟨ns.value, pl, pr⟩) pr r = true ∧
            raddrs (σ4.write next ⟨ns.value, pl, pr⟩) pr r =
              raddrs σ4 pr r := by
          refine reprB_frame σ4 _ r pr hrepr4 ?_
          intro x hx
          have hxr : x ∈ List.range' n2 r.count := by rw [← hfpr4]; exact hx
          rw [List.mem_range'_1] at hxr
          exact hσ5ne x (by omega)
        refine ⟨some next, σ4.write next ⟨ns.value, pl, pr⟩, n4, ?_, ?_, ?_, ?_, ?_, ?_⟩
        · simp [copyS, hs, hcl, hcr]
        · simp only [Tree.count]; omega
        · exact (reprB_some_node _ next v l r).2
            ⟨⟨ns.value, pl, pr⟩, Store.write_same _ _ _, hv, hframel.1, hframer.1⟩
        · rw [raddrs_some_node _ next v l r ⟨ns.value, pl, pr⟩ (Store.write_same _ _ _)]
          show next :: (raddrs _ pl l ++ raddrs _ pr r) = _
          rw [hframel.2, hframer.2, hfpl2, hfpr4, hn2, range1_append,
            ← range1_cons]
          simp only [Tree.count]
          congr 1
          omega
        · intro x hxlt
          rw [hσ5ne x (by omega), hagree4 x (by omega), hσ3ne x (by omega),
            hagree2 x (by omega), Store.write_other σ next x _ (by omega)]
        · intro x hxge
          rw [hσ5ne x (by omega)]
          exact hbd4 x hxge

/-- Specification of the store-level release: on a well-laid-out tree it
succeeds, deallocates exactly the tree's footprint and touches nothing
else. -/
theorem releaseS_spec {α : Type} [DecidableEq α] :
    ∀ (fuel : Nat) (t : Tree α) (σ : Store α) (p : Option Nat),
      reprB σ p t = true → (raddrs σ p t).Nodup → t.count < fuel →
      ∃ σ', releaseS fuel σ p = some σ' ∧
        (∀ x : Nat, x ∉ raddrs σ p t → σ' x = σ x) ∧
        (∀ x ∈ raddrs σ p t, σ' x = none) := by
  intro fuel
  induction fuel with
  | zero => intro t σ p _ _ hm; omega
  | succ fuel ih =>
    intro t σ p hrep hnd hm
    cases t with
    | leaf =>
      cases p with
      | some a => simp [reprB_some_leaf] at hrep
      | none =>
        refine ⟨σ, rfl, fun x _ => rfl, ?_⟩
        intro x hx
        rw [raddrs_none] at hx
        simp at hx
    | node v l r =>
      cases p with
      | none => simp [reprB_none_iff] at hrep
      | some a =>
        obtain ⟨n, ha, hv, hl, hr⟩ := (reprB_some_node σ a v l r).1 hrep
        have hLd : raddrs σ (some a) (Tree.node v l r) =
            a :: (raddrs σ n.ls l ++ raddrs σ n.rs r) :=
          raddrs_some_node σ a v l r n ha
        rw [hLd] at hnd
        obtain ⟨hanm, hndlr⟩ := List.nodup_cons.1 hnd
        obtain ⟨hndl, hndr, hdisjlr⟩ := List.nodup_append.1 hndlr
        simp only [Tree.count] at hm
        obtain ⟨σ1, hrel1, hout1, hin1⟩ := ih l σ n.ls hl hndl (by omega)
        have hframer : reprB σ1 n.rs r = true ∧
            raddrs σ1 n.rs r = raddrs σ n.rs r := by
          refine reprB_frame σ σ1 r n.rs hr ?_
          intro x hx
          exact hout1 x (fun hxl => hdisjlr hxl hx)
        obtain ⟨σ2, hrel2, hout2, hin2⟩ := ih r σ1 n.rs hframer.1
          (by rw [hframer.2]; exact hndr) (by omega)
        rw [hframer.2] at hout2 hin2
        refine ⟨σ2.free a, ?_, ?_, ?_⟩
        · simp [releaseS, ha, hrel1, hrel2]
        · intro x hx
          rw [hLd] at hx
          simp only [List.mem_cons, List.mem_append] at hx
          push_neg at hx
          rw [Store.free_other σ2 a x hx.1, hout2 x hx.2.2, hout1 x hx.2.1]
        · intro x hx
          rw [hLd] at hx
          simp only [List.mem_cons, List.mem_append] at hx
          rcases hx with rfl | hx | hx
          · exact Store.free_same σ2 x
          · have hxa : x ≠ a := fun hxe =>
              hanm (List.mem_append.2 (Or.inl (hxe ▸ hx)))
            rw [Store.free_other σ2 a x hxa, hout2 x (fun hxr => hdisjlr hx hxr)]
            exact hin1 x hx
          · have hxa : x ≠ a := fun hxe =>
              hanm (List.mem_append.2 (Or.inr (hxe ▸ hx)))
            rw [Store.free_other σ2 a x hxa]
            exact hin2 x hx

/-- Specification of store-level push with the fuel used by the op runner:
it succeeds, the container now lays out the value-level push result, the
write set is inside the old footprint plus the fresh address, and the new
footprint is inside the old footprint plus the fresh address. -/
theorem pushS_spec {α : Type} [DecidableEq α] (lt : α → α → Bool)
    (σ : Store α) (next : Nat) (q : PQS) (t : Tree α) (e : α)
    (hwf : WFQ σ q t) (hbd : Bounded σ next) :
    ∃ q' σ' t', pushS lt (q.capacity + 2) σ next q e = some (q', σ', next + 1) ∧
      t' = mergeNode lt t (Tree.node e Tree.leaf Tree.leaf) ∧
      WFQ σ' q' t' ∧
      (∀ x : Nat, x ∉ raddrs σ q.root t → x ≠ next → σ' x = σ x) ∧
      (∀ x ∈ raddrs σ' q'.root t', x ∈ raddrs σ q.root t ∨ x = next) ∧
      Bounded σ' (next + 1) := by
  obtain ⟨hrep, hnd, hcap⟩ := hwf
  have hbelow : ∀ x ∈ raddrs σ q.root t, x < next := by
    intro x hx
    obtain ⟨n, hn⟩ := raddrs_allocated σ t q.root hrep x hx
    by_contra hge
    have hge' : next ≤ x := Nat.le_of_not_lt hge
    rw [hbd x hge'] at hn
    exact Option.noConfusion hn
  -- the freshly allocated singleton
  have hrepsing : reprB (σ.write next ⟨e, none, none⟩) (some next)
      (Tree.node e Tree.leaf Tree.leaf) = true :=
    (reprB_some_node _ next e Tree.leaf Tree.leaf).2
      ⟨⟨e, none, none⟩, Store.write_same _ _ _, rfl, rfl, rfl⟩
  have hfpsing : raddrs (σ.write next ⟨e, none, none⟩) (some next)
      (Tree.node e Tree.leaf Tree.leaf) = [next] := by
    rw [raddrs_some_node _ next e Tree.leaf Tree.leaf ⟨e, none, none⟩
      (Store.write_same _ _ _)]
    rfl
  have hframe : reprB (σ.write next ⟨e, none, none⟩) q.root t = true ∧
      raddrs (σ.write next ⟨e, none, none⟩) q.root t = raddrs σ q.root t := by
    refine reprB_frame σ _ t q.root hrep ?_
    intro x hx
    have := hbelow x hx
    exact Store.write_other σ next x _ (by omega)
  have hndall : (raddrs (σ.write next ⟨e, none, none⟩) q.root t ++
      raddrs (σ.write next ⟨e, none, none⟩) (some next)
        (Tree.node e Tree.leaf Tree.leaf)).Nodup := by
    rw [hframe.2, hfpsing]
    refine List.nodup_append.2 ⟨hnd, List.nodup_singleton next, ?_⟩
    intro x hx hx'
    have := hbelow x hx
    rw [List.mem_singleton] at hx'
    omega
  obtain ⟨m, σ2, hmerge, hrepm, hfpm, hmod⟩ :=
    mergeS_spec lt (q.capacity + 2) t (Tree.node e Tree.leaf Tree.leaf)
      (σ.write next ⟨e, none, none⟩) q.root (some next) hframe.1 hrepsing hndall
      (by simp only [Tree.count]; omega)
  rw [hframe.2] at hmod hfpm
  rw [hfpsing] at hmod hfpm
  rw [hframe.2, hfpsing] at hndall
  refine ⟨⟨q.capacity + 1, m⟩, σ2,
    mergeNode lt t (Tree.node e Tree.leaf Tree.leaf), ?_, rfl, ?_, ?_, ?_, ?_⟩
  · simp [pushS, hmerge]
  · refine ⟨hrepm, hfpm.symm.nodup hndall, ?_⟩
    show q.capacity + 1 = _
    simp only [count_mergeNode, Tree.count]
    omega
  · intro x hx hxn
    rw [hmod x hx (by simp [hxn]), Store.write_other σ next x _ hxn]
  · intro x hx
    have hx' := hfpm.subset hx
    rcases List.mem_append.1 hx' with hx' | hx'
    · exact Or.inl hx'
    · rw [List.mem_singleton] at hx'
      exact Or.inr hx'
  · intro x hxge
    have hx1 : x ∉ raddrs σ q.root t := fun hx => by
      have := hbelow x hx; omega
    have hx2 : x ∉ [next] := by
      rw [List.mem_singleton]; omega
    rw [hmod x hx1 hx2, Store.write_other σ next x _ (by omega)]
    exact hbd x (by omega)

/-- Specification of store-level pop with the fuel used by the op runner:
it succeeds (the empty case throws but leaves the state unchanged), the
container lays out the merge of the old root's children, the write set and
the new footprint are inside the old footprint. -/
theorem popS_spec {α : Type} [DecidableEq α] (lt : α → α → Bool)
    (σ : Store α) (next : Nat) (q : PQS) (t : Tree α)
    (hwf : WFQ σ q t) (hbd : Bounded σ next) :
    ∃ q' σ' t', popS lt (q.capacity + 2) σ next q = some (q', σ', next) ∧
      WFQ σ' q' t' ∧
      (∀ x : Nat, x ∉ raddrs σ q.root t → σ' x = σ x) ∧
      (∀ x ∈ raddrs σ' q'.root t', x ∈ raddrs σ q.root t) ∧
      Bounded σ' next := by
  obtain ⟨hrep, hnd, hcap⟩ := hwf
  have hbelow : ∀ x ∈ raddrs σ q.root t, x < next := by
    intro x hx
    obtain ⟨n, hn⟩ := raddrs_allocated σ t q.root hrep x hx
    by_contra hge
    have hge' : next ≤ x := Nat.le_of_not_lt hge
    rw [hbd x hge'] at hn
    exact Option.noConfusion hn
  by_cases hc : q.capacity = 0
  · refine ⟨q, σ, t, ?_, ⟨hrep, hnd, hcap⟩, fun x _ => rfl, fun x hx => hx, hbd⟩
    simp [popS, hc]
  · cases t with
    | leaf => rw [hcap] at hc; simp [Tree.count] at hc
    | node v l r =>
      cases hq : q.root with
      | none => rw [hq] at hrep; simp [reprB_none_iff] at hrep
      | some a =>
        rw [hq] at hrep hnd hbelow
        obtain ⟨n, ha, hv, hl, hr⟩ := (reprB_some_node σ a v l r).1 hrep
        have hL : raddrs σ (some a) (Tree.node v l r) =
            a :: (raddrs σ n.ls l ++ raddrs σ n.rs r) :=
          raddrs_some_node σ a v l r n ha
        rw [hL] at hnd hbelow
        obtain ⟨hanm, hndlr⟩ := List.nodup_cons.1 hnd
        obtain ⟨m, σ1, hmerge, hrepm, hfpm, hmod⟩ :=
          mergeS_spec lt (q.capacity + 2) l r σ n.ls n.rs hl hr hndlr
            (by simp only [Tree.count] at hcap; omega)
        have hanotm : a ∉ raddrs σ1 m (mergeNode lt l r) := by
          intro hx
          exact hanm (hfpm.subset hx)
        have hframe : reprB (σ1.free a) m (mergeNode lt l r) = true ∧
            raddrs (σ1.free a) m (mergeNode lt l r) =
              raddrs σ1 m (mergeNode lt l r) := by
          refine reprB_frame σ1 _ (mergeNode lt l r) m hrepm ?_
          intro x hx
          exact Store.free_other σ1 a x (fun hxe => hanotm (hxe ▸ hx))
        refine ⟨⟨q.capacity - 1, m⟩, σ1.free a, mergeNode lt l r, ?_, ?_, ?_, ?_, ?_⟩
        · simp [popS, hc, hq, ha, hmerge]
        · refine ⟨hframe.1, ?_, ?_⟩
          · rw [hframe.2]
            exact hfpm.symm.nodup hndlr
          · show q.capacity - 1 = _
            rw [count_mergeNode]
            simp only [Tree.count] at hcap
            omega
        · intro x hx
          rw [hL] at hx
          simp only [List.mem_cons, List.mem_append] at hx
          push_neg at hx
          rw [Store.free_other σ1 a x hx.1, hmod x hx.2.1 hx.2.2]
        · intro x hx
          have hx' : x ∈ raddrs (σ1.free a) m (mergeNode lt l r) := hx
          rw [hframe.2] at hx'
          rw [hL]
          exact List.mem_cons_of_mem a (hfpm.subset hx')
        · intro x hxge
          have hxa : x ≠ a := by
            have := hbelow a (List.mem_cons_self a _)
            omega
          have hxl : x ∉ raddrs σ n.ls l := fun hx => by
            have := hbelow x (List.mem_cons_of_mem a (List.mem_append.2 (Or.inl hx)))
            omega
          have hxr : x ∉ raddrs σ n.rs r := fun hx => by
            have := hbelow x (List.mem_cons_of_mem a (List.mem_append.2 (Or.inr hx)))
            omega
          rw [Store.free_other σ1 a x hxa, hmod x hxl hxr]
          exact hbd x hxge

/-- Running any sequence of push/pop mutations on a well-formed container
succeeds and leaves every address that lies below the allocation frontier
and outside the container's footprint untouched. -/
theorem runOps_frame {α : Type} [DecidableEq α] (lt : α → α → Bool) :
    ∀ (ops : List (OpK α)) (σ : Store α) (next : Nat) (q : PQS) (t : Tree α)
      (S : List Nat),
      WFQ σ q t → Bounded σ next →
      (∀ x ∈ S, x < next) → (∀ x ∈ S, x ∉ raddrs σ q.root t) →
      ∃ q' σ' next', runOps lt ops σ next q = some (q', σ', next') ∧
        ∀ x ∈ S, σ' x = σ x := by
  intro ops
  induction ops with
  | nil =>
    intro σ next q t S hwf hbd hS1 hS2
    exact ⟨q, σ, next, rfl, fun x _ => rfl⟩
  | cons op ops ih =>
    intro σ next q t S hwf hbd hS1 hS2
    cases op with
    | pushOp e =>
      obtain ⟨q', σ', t', hpush, hteq, hwf', hmod, hsub, hbd'⟩ :=
        pushS_spec lt σ next q t e hwf hbd
      obtain ⟨q'', σ'', next'', hrun, hmod2⟩ :=
        ih σ' (next + 1) q' t' S hwf' hbd'
          (fun x hx => by have := hS1 x hx; omega)
          (fun x hx hmem => by
            rcases hsub x hmem with h | h
            · exact hS2 x hx h
            · have := hS1 x hx; omega)
      refine ⟨q'', σ'', next'', ?_, ?_⟩
      · simp only [runOps, hpush, Option.bind_eq_bind, Option.some_bind]
        exact hrun
      · intro x hx
        rw [hmod2 x hx, hmod x (hS2 x hx) (by have := hS1 x hx; omega)]
    | popOp =>
      obtain ⟨q', σ', t', hpop, hwf', hmod, hsub, hbd'⟩ :=
        popS_spec lt σ next q t hwf hbd
      obtain ⟨q'', σ'', next'', hrun, hmod2⟩ :=
        ih σ' next q' t' S hwf' hbd'
          (fun x hx => hS1 x hx)
          (fun x hx hmem => hS2 x hx (hsub x hmem))
      refine ⟨q'', σ'', next'', ?_, ?_⟩
      · simp only [runOps, hpop, Option.bind_eq_bind, Option.some_bind]
        exact hrun
      · intro x hx
        rw [hmod2 x hx, hmod x (hS2 x hx)]

/-- The default std::less comparator on Nat is asymmetric. -/
theorem asymm_natLt : Asymm natLt := by
  intro x y h
  simp [natLt] at *
  omega

/-- Sanity: under a comparator that never throws, the exception-aware merge
agrees with the pure merge. -/
theorem mergeNodeE_total {α : Type} (lt : α → α → Bool) (a b : Tree α) :
    mergeNodeE (fun x y => .ok (lt x y)) a b = .ok (mergeNode lt a b) := by
  induction a, b using mergeNode.induct lt with
  | case1 b => simp [mergeNodeE, mergeNode_leaf_left]
  | case2 a h =>
    cases a with
    | leaf => simp [mergeNodeE, mergeNode_leaf_left]
    | node v l r => simp [mergeNodeE, mergeNode_leaf_right]
  | case3 av al ar bv bl br hlt ih =>
    rw [mergeNode_node, if_pos hlt, mergeNodeE, hlt, ih]
  | case4 av al ar bv bl br hlt ih =>
    rw [mergeNode_node, mergeNodeE]
    simp only [Bool.not_eq_true] at hlt
    rw [hlt, ih]
    simp

/-! Claim theorems. -/

/-- C1: MergeNode follows the skew-heap merge algorithm: an absent operand
returns the other unchanged; otherwise the operand not preferred by the
single comparator invocation on (a, b) (ties keeping a) becomes the new root,
the other operand is merged with the new root's previous right subtree, the
result is attached as the new right subtree, and the children are then
unconditionally swapped (stated as equality with the spec-side rendering
skewMergeSpec); the result stores exactly the multiset union of the inputs. -/
theorem mergeNode_follows_skew_algorithm {α : Type} (lt : α → α → Bool)
    (a b : Tree α) :
    mergeNode lt Tree.leaf b = b ∧
    mergeNode lt a Tree.leaf = a ∧
    mergeNode lt a b = skewMergeSpec lt a b ∧
    (mergeNode lt a b).elems = a.elems + b.elems :=
  ⟨mergeNode_leaf_left lt b, mergeNode_leaf_right lt a,
   (skewMergeSpec_eq_mergeNode lt a b).symm, elems_mergeNode lt a b⟩

/-- C2: every state reachable through the public interface from the default
constructor satisfies the heap-order invariant for an asymmetric comparator,
and with the default less-than comparator on Nat the root value bounds every
stored element from above. -/
theorem reachable_states_heap_ordered :
    (∀ {α : Type} (lt : α → α → Bool), Asymm lt → ∀ q : PQ α,
        Reachable lt q → heapOrderedB lt q.root = true) ∧
    (∀ q : PQ Nat, Reachable natLt q → ∀ v l r, q.root = Tree.node v l r →
        ∀ x ∈ q.root.elems, x ≤ v) := by
  constructor
  · intro α lt hasym q hq
    exact reachable_heapOrderedB lt hasym q hq
  · intro q hq v l r hroot x hx
    exact heapOrderedB_le_root q.root
      (reachable_heapOrderedB natLt asymm_natLt q hq) v l r hroot x hx

/-- Witness for C2 at a concrete reachable heap. -/
theorem reachable_states_heap_ordered_witness :
    heapOrderedB natLt (push natLt (push natLt emptyPQ 3) 7).root = true :=
  reachable_states_heap_ordered.1 natLt asymm_natLt _
    (Reachable.push _ 7 (Reachable.push _ 3 Reachable.init))

/-- C3: merge(other) adds the two sizes into the receiver, installs
MergeNode(receiver.root, donor.root) as the receiver's tree, and leaves the
donor empty (size 0, empty() true, null root). -/
theorem merge_sizes_and_consumes_donor {α : Type} (lt : α → α → Bool)
    (A B : PQ α) :
    ((mergeQs lt A B).1).size = A.size + B.size ∧
    ((mergeQs lt A B).1).root = mergeNode lt A.root B.root ∧
    ((mergeQs lt A B).2).size = 0 ∧
    ((mergeQs lt A B).2).isEmptyQ = true ∧
    ((mergeQs lt A B).2).root = Tree.leaf :=
  ⟨rfl, rfl, rfl, rfl, rfl⟩

/-- C4: pop on an empty heap fails with the empty-container error; on a
non-empty heap it produces the merge of the old root's children as the new
tree with size exactly one lower, removing exactly one occurrence of the root
value while both children's elements survive in the new tree. -/
theorem pop_replaces_root_by_child_merge {α : Type} (lt : α → α → Bool)
    (q : PQ α) :
    (q.size = 0 → pop lt q = .error .containerIsEmpty) ∧
    (∀ v l r, q.root = Tree.node v l r → q.size ≠ 0 →
      pop lt q = .ok ⟨q.size - 1, mergeNode lt l r⟩ ∧
      (q.size - 1) + 1 = q.size ∧
      (mergeNode lt l r).elems = l.elems + r.elems ∧
      v ::ₘ (mergeNode lt l r).elems = q.root.elems) := by
  constructor
  · intro h
    simp [pop, PQ.isEmptyQ, PQ.size] at *
    simp [h]
  · intro v l r hroot hne
    refine ⟨?_, by simp [PQ.size] at *; omega, elems_mergeNode lt l r, ?_⟩
    · rw [pop, if_neg (by simp [PQ.isEmptyQ, PQ.size] at *; exact hne), hroot]
      rfl
    · rw [hroot, Tree.elems, elems_mergeNode]

/-- Witness for C4: a two-element heap and the empty heap. -/
theorem pop_replaces_root_by_child_merge_witness :
    pop natLt (⟨2, Tree.node 7 (Tree.node 3 Tree.leaf Tree.leaf) Tree.leaf⟩ : PQ Nat) =
      .ok ⟨1, mergeNode natLt (Tree.node 3 Tree.leaf Tree.leaf) Tree.leaf⟩ ∧
    pop natLt (emptyPQ : PQ Nat) = .error .containerIsEmpty :=
  ⟨((pop_replaces_root_by_child_merge natLt _).2 7
      (Tree.node 3 Tree.leaf Tree.leaf) Tree.leaf rfl (by decide)).1,
   (pop_replaces_root_by_child_merge natLt _).1 rfl⟩

/-- C5 counterexample: the constructor priority_queue(LeftistNode*, size_t)
with its default capacity argument 0 and a one-node tree yields a state whose
cached size 0 differs from the single live node reachable from root. -/
theorem size_consistency_ctor_cex :
    ¬ ((ofNode (Tree.node (5 : Nat) Tree.leaf Tree.leaf) 0).size =
        (ofNode (Tree.node (5 : Nat) Tree.leaf Tree.leaf) 0).root.count) := by
  decide

/-- C5 amended: size() equals the number of live nodes reachable from root in
every state reachable from the default constructor through push, successful
pop, merge (either operand), copy construction and copy assignment; the
(root, capacity) constructor establishes the invariant exactly when the
supplied capacity equals the copied tree's node count. -/
theorem size_equals_node_count_reachable :
    (∀ {α : Type} (lt : α → α → Bool) (q : PQ α),
        Reachable lt q → q.size = q.root.count) ∧
    (∀ {α : Type} (t : Tree α) (n : Nat), n = t.count →
        (ofNode t n).size = (ofNode t n).root.count) := by
  constructor
  · intro α lt q hq
    exact reachable_count lt q hq
  · intro α t n hn
    simp [ofNode, PQ.size, Tree.copy_eq, hn]

/-- Witness for C5 on a concrete reachable state and a matching-capacity
construction. -/
theorem size_equals_node_count_reachable_witness :
    (push natLt emptyPQ 4).size = (push natLt emptyPQ 4).root.count ∧
    (ofNode (Tree.node (5 : Nat) Tree.leaf Tree.leaf) 1).size =
      (ofNode (Tree.node (5 : Nat) Tree.leaf Tree.leaf) 1).root.count :=
  ⟨size_equals_node_count_reachable.1 natLt _ (Reachable.push _ 4 Reachable.init),
   size_equals_node_count_reachable.2 (Tree.node 5 Tree.leaf Tree.leaf) 1 (by decide)⟩

/-- C6: top and pop report the empty-container error exactly when size() is 0
(in particular on a freshly constructed heap, which is empty with size 0);
on a non-empty heap top returns the root's value, and being a pure observer
it mutates nothing. -/
theorem top_pop_empty_error_iff {α : Type} (lt : α → α → Bool) (q : PQ α) :
    (top q = .error .containerIsEmpty ↔ q.size = 0) ∧
    (pop lt q = .error .containerIsEmpty ↔ q.size = 0) ∧
    (∀ v l r, q.root = Tree.node v l r → q.size ≠ 0 → top q = .ok v) ∧
    ((emptyPQ : PQ α).isEmptyQ = true ∧ (emptyPQ : PQ α).size = 0 ∧
      top (emptyPQ : PQ α) = .error .containerIsEmpty ∧
      pop lt (emptyPQ : PQ α) = .error .containerIsEmpty) := by
  refine ⟨?_, ?_, ?_, rfl, rfl, rfl, rfl⟩
  · by_cases h : q.capacity = 0
    · simp [top, PQ.isEmptyQ, PQ.size, h]
    · simp only [top, PQ.isEmptyQ, PQ.size]
      rw [if_neg (by simpa using h)]
      cases q.root <;> simp [h]
  · by_cases h : q.capacity = 0
    · simp [pop, PQ.isEmptyQ, PQ.size, h]
    · simp only [pop, PQ.isEmptyQ, PQ.size]
      rw [if_neg (by simpa using h)]
      cases q.root <;> simp [h]
  · intro v l r hroot hne
    rw [top, if_neg (by simp [PQ.isEmptyQ, PQ.size] at *; exact hne), hroot]

/-- Witness for C6 at a concrete singleton heap. -/
theorem top_pop_empty_error_iff_witness :
    top (⟨1, Tree.node (9 : Nat) Tree.leaf Tree.leaf⟩ : PQ Nat) = .ok 9 :=
  (top_pop_empty_error_iff natLt _).2.2.1 9 Tree.leaf Tree.leaf rfl (by decide)

/-- C7 counterexample: with a comparator whose every call throws, pop on the
three-element heap q3 returns with the state completely unchanged: the old
root node (value 5) is still the root, hence still reachable from root —
contradicting the claim that it becomes unreachable and is leaked. -/
theorem pop_comparator_failure_cex :
    popE failLt q3 = .ok q3 ∧ top q3 = .ok 5 ∧ q3.size = 3 := by
  refine ⟨?_, rfl, rfl⟩
  simp [popE, q3, mergeNodeE, failLt, PQ.isEmptyQ]

/-- C7 amended: when the merge inside pop fails, the failure is swallowed and
pop returns as a complete no-op: size and tree are both unchanged, the old
root is still the root (so it stays reachable and nothing leaks), because in
MergeNode every comparator call precedes every node mutation. -/
theorem pop_comparator_failure_noop {α : Type} (lt : α → α → Except Unit Bool)
    (q : PQ α) :
    q.size ≠ 0 → ∀ v l r, q.root = Tree.node v l r →
    ∀ e, mergeNodeE lt l r = .error e → popE lt q = .ok q := by
  intro hne v l r hroot e herr
  rw [popE, if_neg (by simp [PQ.isEmptyQ, PQ.size] at *; exact hne), hroot]
  simp [herr]

/-- Witness for C7 amended at q3 with the always-throwing comparator. -/
theorem pop_comparator_failure_noop_witness : popE failLt q3 = .ok q3 :=
  pop_comparator_failure_noop failLt q3 (by decide) 5
    (Tree.node 3 Tree.leaf Tree.leaf) (Tree.node 1 Tree.leaf Tree.leaf) rfl ()
    (by simp [mergeNodeE, failLt])

/-- C8: deep-copy independence, settled in the pointer-store model. Heap A
lays out tree tA without internal sharing below the allocation frontier; the
assignment target's old tree lays out disjointly from A (for
copy-construction it is the absent tree). Then copy-assignment — release of
the target's old tree followed by a deep copy of A's tree, the new record
taking A's capacity — succeeds; at copy time C lays out the same value tree
tA as A on a node-disjoint footprint (deep copy, no shared nodes); and after
any sequence of push/pop mutations applied to C in the shared store, A's
tree is still laid out unchanged at its original addresses and A's top()
reads the same result (A's size() is a field of A's own record, which the
mutations of C never write). -/
theorem copy_independence {α : Type} [DecidableEq α] (lt : α → α → Bool)
    (σ0 : Store α) (next0 : Nat) (pA pC : Option Nat) (tA tC : Tree α)
    (mA : Nat) (ops : List (OpK α))
    (hA : reprB σ0 pA tA = true) (hAnd : (raddrs σ0 pA tA).Nodup)
    (hmA : mA = tA.count)
    (hC : reprB σ0 pC tC = true) (hCnd : (raddrs σ0 pC tC).Nodup)
    (hACdisj : (raddrs σ0 pA tA).Disjoint (raddrs σ0 pC tC))
    (hbd : Bounded σ0 next0) :
    ∃ σ1 p σ2 next2 q3 σ3 next3,
      releaseS (tC.count + 1) σ0 pC = some σ1 ∧
      copyS (tA.count + 1) σ1 next0 pA = some (p, σ2, next2) ∧
      reprB σ2 p tA = true ∧
      reprB σ2 pA tA = true ∧
      raddrs σ2 pA tA = raddrs σ0 pA tA ∧
      (raddrs σ2 p tA).Disjoint (raddrs σ2 pA tA) ∧
      runOps lt ops σ2 next2 ⟨mA, p⟩ = some (q3, σ3, next3) ∧
      (∀ x ∈ raddrs σ0 pA tA, σ3 x = σ0 x) ∧
      reprB σ3 pA tA = true ∧
      raddrs σ3 pA tA = raddrs σ0 pA tA ∧
      topS σ3 (⟨mA, pA⟩ : PQS) = topS σ0 (⟨mA, pA⟩ : PQS) := by
  have hbelowA : ∀ x ∈ raddrs σ0 pA tA, x < next0 := by
    intro x hx
    obtain ⟨n, hn⟩ := raddrs_allocated σ0 tA pA hA x hx
    by_contra hge
    have hge' : next0 ≤ x := Nat.le_of_not_lt hge
    rw [hbd x hge'] at hn
    exact Option.noConfusion hn
  obtain ⟨σ1, hrel, hout1, hin1⟩ :=
    releaseS_spec (tC.count + 1) tC σ0 pC hC hCnd (by omega)
  have hframeA1 : reprB σ1 pA tA = true ∧ raddrs σ1 pA tA = raddrs σ0 pA tA := by
    refine reprB_frame σ0 σ1 tA pA hA ?_
    intro x hx
    exact hout1 x (fun hxc => hACdisj hx hxc)
  have hbd1 : Bounded σ1 next0 := by
    intro x hxge
    by_cases hxc : x ∈ raddrs σ0 pC tC
    · exact hin1 x hxc
    · rw [hout1 x hxc]
      exact hbd x hxge
  obtain ⟨p, σ2, next2, hcopy, hnext2, hrepC, hfpC, hagree2, hbd2⟩ :=
    copyS_spec (tA.count + 1) tA σ1 next0 pA hframeA1.1 hbd1 (by omega)
  have hframeA2 : reprB σ2 pA tA = true ∧ raddrs σ2 pA tA = raddrs σ1 pA tA := by
    refine reprB_frame σ1 σ2 tA pA hframeA1.1 ?_
    intro x hx
    rw [hframeA1.2] at hx
    exact hagree2 x (hbelowA x hx)
  have hfpA2 : raddrs σ2 pA tA = raddrs σ0 pA tA := by
    rw [hframeA2.2, hframeA1.2]
  have hdisjCA : (raddrs σ2 p tA).Disjoint (raddrs σ2 pA tA) := by
    intro x hx hx'
    rw [hfpC, List.mem_range'_1] at hx
    rw [hfpA2] at hx'
    have := hbelowA x hx'
    omega
  have hwfC : WFQ σ2 (⟨mA, p⟩ : PQS) tA := by
    refine ⟨hrepC, ?_, hmA⟩
    rw [hfpC]
    exact List.nodup_range' next0 tA.count
  obtain ⟨q3, σ3, next3, hrun, hmod3⟩ :=
    runOps_frame lt ops σ2 next2 ⟨mA, p⟩ tA (raddrs σ0 pA tA) hwfC hbd2
      (fun x hx => by have := hbelowA x hx; omega)
      (fun x hx hmem => by
        have hmem' : x ∈ raddrs σ2 p tA := hmem
        rw [hfpC, List.mem_range'_1] at hmem'
        have := hbelowA x hx
        omega)
  have hmodA : ∀ x ∈ raddrs σ0 pA tA, σ3 x = σ0 x := by
    intro x hx
    rw [hmod3 x hx]
    rw [← hframeA1.2] at hx
    rw [hagree2 x (by rw [hframeA1.2] at hx; exact hbelowA x hx)]
    rw [hframeA1.2] at hx
    exact hout1 x (fun hxc => hACdisj hx hxc)
  have hframeA3 : reprB σ3 pA tA = true ∧ raddrs σ3 pA tA = raddrs σ2 pA tA := by
    refine reprB_frame σ2 σ3 tA pA hframeA2.1 ?_
    intro x hx
    rw [hfpA2] at hx
    rw [hmodA x hx]
    rw [← hfpA2] at hx
    rw [hframeA2.2] at hx
    rw [hagree2 x (by rw [hframeA1.2] at hx; exact hbelowA x hx)]
    rw [hframeA1.2] at hx
    exact (hout1 x (fun hxc => hACdisj hx hxc)).symm
  have htop : topS σ3 (⟨mA, pA⟩ : PQS) = topS σ0 (⟨mA, pA⟩ : PQS) := by
    cases hpA : pA with
    | none => simp [topS]
    | some a =>
      cases tA with
      | leaf => rw [hpA] at hA; simp [reprB_some_leaf] at hA
      | node v l r =>
        rw [hpA] at hA
        obtain ⟨n, ha, _, _, _⟩ := (reprB_some_node σ0 a v l r).1 hA
        have hmem : a ∈ raddrs σ0 pA (Tree.node v l r) := by
          rw [hpA, raddrs_some_node σ0 a v l r n ha]
          exact List.mem_cons_self a _
        have hsa : σ3 a = σ0 a := hmodA a hmem
        simp only [topS, hsa]
  exact ⟨σ1, p, σ2, next2, q3, σ3, next3, hrel, hcopy, hrepC, hframeA2.1,
    hfpA2, hdisjCA, hrun, hmodA, hframeA3.1, by rw [hframeA3.2, hfpA2], htop⟩

/-- Witness for C8: heap A holding value 5 at address 0, copy-constructed
(absent old tree), then push 7 and pop applied to the copy. -/
theorem copy_independence_witness :
    ∃ σ1 p σ2 next2 q3 σ3 next3,
      releaseS ((Tree.leaf : Tree Nat).count + 1) witStore none = some σ1 ∧
      copyS ((Tree.node (5 : Nat) Tree.leaf Tree.leaf).count + 1) σ1 1 (some 0) =
        some (p, σ2, next2) ∧
      reprB σ2 p (Tree.node (5 : Nat) Tree.leaf Tree.leaf) = true ∧
      reprB σ2 (some 0) (Tree.node (5 : Nat) Tree.leaf Tree.leaf) = true ∧
      raddrs σ2 (some 0) (Tree.node (5 : Nat) Tree.leaf Tree.leaf) =
        raddrs witStore (some 0) (Tree.node (5 : Nat) Tree.leaf Tree.leaf) ∧
      (raddrs σ2 p (Tree.node (5 : Nat) Tree.leaf Tree.leaf)).Disjoint
        (raddrs σ2 (some 0) (Tree.node (5 : Nat) Tree.leaf Tree.leaf)) ∧
      runOps natLt [OpK.pushOp 7, OpK.popOp] σ2 next2 ⟨1, p⟩ =
        some (q3, σ3, next3) ∧
      (∀ x ∈ raddrs witStore (some 0) (Tree.node (5 : Nat) Tree.leaf Tree.leaf),
        σ3 x = witStore x) ∧
      reprB σ3 (some 0) (Tree.node (5 : Nat) Tree.leaf Tree.leaf) = true ∧
      raddrs σ3 (some 0) (Tree.node (5 : Nat) Tree.leaf Tree.leaf) =
        raddrs witStore (some 0) (Tree.node (5 : Nat) Tree.leaf Tree.leaf) ∧
      topS σ3 (⟨1, some 0⟩ : PQS) = topS witStore (⟨1, some 0⟩ : PQS) :=
  copy_independence natLt witStore 1 (some 0) none
    (Tree.node 5 Tree.leaf Tree.leaf) Tree.leaf 1 [OpK.pushOp 7, OpK.popOp]
    (by decide) (by decide) (by decide) (by decide) (by decide)
    (by intro a h1 h2; rw [raddrs_none] at h2; exact absurd h2 (List.not_mem_nil a))
    (by intro a ha; show witStore a = none; unfold witStore; rw [if_neg (by omega)])

/-- C9: MergeNode terminates on all finite trees: on two non-null operands
each of the two possible recursive calls is on a pair of strictly smaller
combined node count (the well-founded measure), the function satisfies its
defining recursion, and the result's node count is the sum of the inputs. -/
theorem mergeNode_terminating_measure {α : Type} (lt : α → α → Bool)
    (av : α) (al ar : Tree α) (bv : α) (bl br : Tree α) :
    br.count + (Tree.node av al ar).count <
      (Tree.node av al ar).count + (Tree.node bv bl br).count ∧
    ar.count + (Tree.node bv bl br).count <
      (Tree.node av al ar).count + (Tree.node bv bl br).count ∧
    mergeNode lt (Tree.node av al ar) (Tree.node bv bl br) =
      (if lt av bv then Tree.node bv (mergeNode lt br (Tree.node av al ar)) bl
       else Tree.node av (mergeNode lt ar (Tree.node bv bl br)) al) ∧
    (mergeNode lt (Tree.node av al ar) (Tree.node bv bl br)).count =
      (Tree.node av al ar).count + (Tree.node bv bl br).count := by
  refine ⟨by simp only [Tree.count]; omega, by simp only [Tree.count]; omega,
    mergeNode_node lt av al ar bv bl br, count_mergeNode lt _ _⟩

/-- C10: copy-assignment of a heap to itself takes the detected self-assignment
branch and returns the state exactly unchanged, before the old tree would be
released. -/
theorem self_assignment_noop {α : Type} (q : PQ α) : assign q q true = q := rfl

end SkewHeapPQ
